import Mathlib

/-!
# Verification of the biogit repository engine

A shallow embedding, in Lean 4, of the parts of the biogit version-control
system that the specification's testable claims talk about:

* the object model (`Blob` / `Tree` / `Commit`) and its serialization
  (`src/src/object.cpp`),
* the index / staging area (`src/src/Index.cpp`),
* repository operations: `rm`, `commit`, `merge` (three-way section),
  `update_ref`, `is_fast_forward`, `_find_common_ancestor`
  (`src/src/Repository.cpp`),
* the token manager (`src/src/UserManager.cpp`).

C++ `std::string` values are modelled as `List Char`; files and the object
store are modelled as association lists.  Filesystem I/O is assumed to
succeed: error paths that only an I/O fault can take are not modelled.
-/

namespace Biogit

/-- C++ `std::string`, modelled as a list of characters. -/
abbrev Str := List Char

/-- `pat.leadsWith s`: the string `s` starts with the pattern `pat`
(models `std::string::rfind(pat, 0) == 0`). -/
def leadsWith : Str → Str → Bool
  | [], _ => true
  | _ :: _, [] => false
  | p :: ps, c :: cs => p = c && leadsWith ps cs

/-- `containsRun pat s`: `pat` occurs contiguously inside `s`
(models `std::string::find(pat) != npos`). -/
def containsRun (pat : Str) : Str → Bool
  | [] => leadsWith pat []
  | c :: cs => leadsWith pat (c :: cs) || containsRun pat cs

/-- `::isxdigit` on the ASCII range used by hashes. -/
def isHexDigit (c : Char) : Bool :=
  ('0' ≤ c && c ≤ '9') || ('a' ≤ c && c ≤ 'f') || ('A' ≤ c && c ≤ 'F')

/-- Author / committer record of a commit (`PersonTimestamp` in `object.h`);
the timestamp is kept in unix seconds, the unit `format_for_commit` writes. -/
structure PersonTimestamp where
  name : Str
  email : Str
  timestamp : Int
  timezone_offset : Str
deriving DecidableEq, Repr

/-- A commit object (`Commit` in `object.h`). -/
structure Commit where
  tree_hash_hex : Str
  parent_hashes_hex : List Str
  author : PersonTimestamp
  committer : PersonTimestamp
  message : Str
deriving DecidableEq, Repr

/-- The commit objects reachable on disk under `.biogit/objects`,
as a map from hash to parsed commit. -/
abbrev ObjectStore := List (Str × Commit)

/-- `Commit::load_by_hash`, restricted to the lookup a store models. -/
def load_by_hash : ObjectStore → Str → Option Commit
  | [], _ => none
  | (k, c) :: rest, h => if k = h then some c else load_by_hash rest h

/-! ## C2 — `Repository::is_fast_forward` (Repository.cpp:5063) -/

/-- The `while` loop of `Repository::is_fast_forward`: walk from `current`
along first parents (at each node also scanning the whole parent list for
`old_hash`), with a visited set and the `MAX_FF_DEPTH = 1000` fuel. -/
def ffWalk (store : ObjectStore) (old_hash : Str) :
    Nat → List Str → Str → Bool
  | 0, _, _ => false
  | fuel + 1, visited, current =>
    if current = [] then false
    else if current = old_hash then true
    else if current ∈ visited then false
    else
      match load_by_hash store current with
      | none => false
      | some c =>
        match c.parent_hashes_hex with
        | [] => false
        | p :: ps =>
          if old_hash ∈ p :: ps then true
          else ffWalk store old_hash fuel (current :: visited) p

/-- `Repository::is_fast_forward(old, new)` from Repository.cpp:5063. -/
def is_fast_forward (store : ObjectStore) (old_hash new_hash : Str) : Bool :=
  if old_hash = [] then true
  else if old_hash = new_hash then true
  else ffWalk store old_hash 1000 [] new_hash

/-- Modelled from the spec: "a first-parent walk from B reaches A within
1000 steps", with cycle detection on a visited set.  Only the first parent
of each commit is followed, and only node equality with the target counts. -/
def firstParentReaches (store : ObjectStore) (target : Str) :
    Nat → List Str → Str → Bool
  | 0, _, _ => false
  | fuel + 1, visited, current =>
    if current = target then true
    else if current ∈ visited then false
    else
      match load_by_hash store current with
      | none => false
      | some c =>
        match c.parent_hashes_hex with
        | [] => false
        | p :: _ => firstParentReaches store target fuel (current :: visited) p

/-- Amended walk: like the spec's first-parent walk, but a node also counts
as reaching the target when the target occurs anywhere in its parent list
(this is what the code's inner parent scan does). -/
def anyParentReaches (store : ObjectStore) (target : Str) :
    Nat → List Str → Str → Bool
  | 0, _, _ => false
  | fuel + 1, visited, current =>
    if current = [] then false
    else if current ∈ visited then false
    else
      match load_by_hash store current with
      | none => false
      | some c =>
        if target ∈ c.parent_hashes_hex then true
        else
          match c.parent_hashes_hex with
          | [] => false
          | p :: _ => anyParentReaches store target fuel (current :: visited) p

/-- A commit record whose only meaningful field is its parent list. -/
def mkCommit (parents : List Str) : Commit :=
  { tree_hash_hex := []
    parent_hashes_hex := parents
    author := ⟨[], [], 0, []⟩
    committer := ⟨[], [], 0, []⟩
    message := [] }

/-- Store refuting C2: `B` is a merge whose second (non-first) parent is `A`. -/
def storeC2 : ObjectStore :=
  [(['a'], mkCommit []), (['p'], mkCommit []),
   (['b'], mkCommit [['p'], ['a']])]

theorem ffWalk_eq_anyParentReaches (store : ObjectStore) (old_hash : Str) :
    ∀ (fuel : Nat) (visited : List Str) (current : Str),
      current ≠ old_hash →
      ffWalk store old_hash fuel visited current =
        anyParentReaches store old_hash fuel visited current := by
  intro fuel
  induction fuel with
  | zero => intro visited current _; rfl
  | succ n ih =>
    intro visited current hne
    simp only [ffWalk, anyParentReaches, if_neg hne]
    by_cases hemp : current = []
    · simp [hemp]
    · simp only [if_neg hemp]
      by_cases hvis : current ∈ visited
      · simp [hvis]
      · simp only [if_neg hvis]
        cases hload : load_by_hash store current with
        | none => rfl
        | some c =>
          dsimp only
          cases hps : c.parent_hashes_hex with
          | nil => simp
          | cons p ps =>
            by_cases hmem : old_hash ∈ p :: ps
            · simp [hmem]
            · have hp : p ≠ old_hash := by
                intro h; exact hmem (h ▸ List.mem_cons_self p ps)
              simp only [if_neg hmem]
              have : ¬ (old_hash ∈ ([] : List Str)) := List.not_mem_nil _
              simp only [List.mem_cons, not_or] at hmem
              simp [hmem.1, hmem.2, ih (current :: visited) p hp]

/-- C2: the claim's "is_fast_forward(A, B) is true iff a first-parent walk
from B reaches A within 1000 steps" is refuted: in `storeC2`, `b` is a merge
commit whose second parent is `a`, the pure first-parent walk from `b` never
reaches `a`, yet the code's inner scan of the whole parent list answers true. -/
theorem C2_is_fast_forward_cex :
    is_fast_forward storeC2 ['a'] ['b'] = true ∧
    firstParentReaches storeC2 ['a'] 1000 [] ['b'] = false := by
  constructor <;> decide

/-- C2 (amended): for A non-empty and A ≠ B, `is_fast_forward(A, B)` is true
iff the walk from B along first parents (within 1000 steps, with cycle
detection) encounters a commit whose parent list contains A anywhere —
not only as first parent. -/
theorem C2_is_fast_forward_amended (store : ObjectStore)
    (old_hash new_hash : Str) (h1 : old_hash ≠ []) (h2 : old_hash ≠ new_hash) :
    is_fast_forward store old_hash new_hash =
      anyParentReaches store old_hash 1000 [] new_hash := by
  unfold is_fast_forward
  rw [if_neg h1, if_neg h2]
  exact ffWalk_eq_anyParentReaches store old_hash 1000 [] new_hash (Ne.symm h2)

theorem C2_is_fast_forward_amended_witness :
    (['a'] : Str) ≠ [] ∧ (['a'] : Str) ≠ ['b'] ∧
    is_fast_forward storeC2 ['a'] ['b'] =
      anyParentReaches storeC2 ['a'] 1000 [] ['b'] :=
  ⟨by decide, by decide,
   C2_is_fast_forward_amended storeC2 ['a'] ['b'] (by decide) (by decide)⟩

/-! ## C5 — `Repository::_find_common_ancestor` (Repository.cpp:4815) -/

/-- `std::set::insert`, membership view. -/
def setInsert (x : Str) (s : List Str) : List Str := if x ∈ s then s else x :: s

/-- The parent loop of both BFS passes: push every parent not yet visited
onto the back of the queue (`std::queue::push`).  Queue component. -/
def pushQueue : List Str → List Str → List Str → List Str
  | [], q, _ => q
  | p :: ps, q, v => if p ∈ v then pushQueue ps q v else pushQueue ps (q ++ [p]) (p :: v)

/-- The parent loop of both BFS passes, visited-set component. -/
def pushVisited : List Str → List Str → List Str
  | [], v => v
  | p :: ps, v => if p ∈ v then pushVisited ps v else pushVisited ps (p :: v)

/-- First pass of `_find_common_ancestor`: BFS from `commit_hash1`,
recording every popped hash in `ancestors1`.  `fuel` bounds the iteration
count (the C++ loop needs at most `1 + total parent count` iterations,
which `fcaFuel` supplies, because each iteration pops one element and each
push also grows the duplicate-free visited set). -/
def collectAncestors (store : ObjectStore) :
    Nat → List Str → List Str → List Str → List Str
  | 0, _, anc, _ => anc
  | fuel + 1, queue, anc, visited =>
    match queue with
    | [] => anc
    | cur :: rest =>
      match load_by_hash store cur with
      | none => collectAncestors store fuel rest (setInsert cur anc) visited
      | some c =>
        collectAncestors store fuel
          (pushQueue c.parent_hashes_hex rest visited)
          (setInsert cur anc)
          (pushVisited c.parent_hashes_hex visited)

/-- Second pass of `_find_common_ancestor`: BFS from `commit_hash2`,
returning the first popped hash present in `ancestors1`. -/
def bfsFindFirst (store : ObjectStore) (anc : List Str) :
    Nat → List Str → List Str → Option Str
  | 0, _, _ => none
  | fuel + 1, queue, visited =>
    match queue with
    | [] => none
    | cur :: rest =>
      if cur ∈ anc then some cur
      else
        match load_by_hash store cur with
        | none => bfsFindFirst store anc fuel rest visited
        | some c =>
          bfsFindFirst store anc fuel
            (pushQueue c.parent_hashes_hex rest visited)
            (pushVisited c.parent_hashes_hex visited)

/-- Iteration bound that makes the fuelled BFS total and exact: each
iteration pops one queue element, and every push adds a new element to the
duplicate-free visited set, which never exceeds `1 + total parent count`. -/
def fcaFuel (store : ObjectStore) : Nat :=
  1 + (store.map (fun kc => kc.2.parent_hashes_hex.length)).sum

/-- `Repository::_find_common_ancestor` from Repository.cpp:4815. -/
def _find_common_ancestor (store : ObjectStore) (h1 h2 : Str) : Option Str :=
  if h1 = [] ∨ h2 = [] then none
  else if h1 = h2 then some h1
  else
    bfsFindFirst store (collectAncestors store (fcaFuel store) [h1] [] [h1])
      (fcaFuel store) [h2] [h2]

/-- `a` is `r` itself or reachable from `r`... precisely: `Reaches store a b`
says `b` is an ancestor of `a` (following parent edges of loadable commits). -/
inductive Reaches (store : ObjectStore) : Str → Str → Prop
  | refl (h : Str) : Reaches store h h
  | step {a b c : Str} {cm : Commit} : Reaches store a b →
      load_by_hash store b = some cm → c ∈ cm.parent_hashes_hex →
      Reaches store a c

/-- Criss-cross history: `a` has parents `[x, y]`, `b` has parents `[y, x]`. -/
def storeC5 : ObjectStore :=
  [(['x'], mkCommit []), (['y'], mkCommit []),
   (['a'], mkCommit [['x'], ['y']]), (['b'], mkCommit [['y'], ['x']])]

theorem pushQueue_mem {ps q v : List Str} {x : Str}
    (h : x ∈ pushQueue ps q v) : x ∈ q ∨ x ∈ ps := by
  induction ps generalizing q v with
  | nil => exact Or.inl h
  | cons p ps ih =>
    simp only [pushQueue] at h
    split at h
    · rcases ih h with hq | hp
      · exact Or.inl hq
      · exact Or.inr (List.mem_cons_of_mem _ hp)
    · rcases ih h with hq | hp
      · rcases List.mem_append.1 hq with hq' | hp'
        · exact Or.inl hq'
        · exact Or.inr (by simp at hp'; simp [hp'])
      · exact Or.inr (List.mem_cons_of_mem _ hp)

theorem setInsert_mem {x c : Str} {s : List Str}
    (h : x ∈ setInsert c s) : x = c ∨ x ∈ s := by
  by_cases hc : c ∈ s
  · simp only [setInsert, if_pos hc] at h
    exact Or.inr h
  · simp only [setInsert, if_neg hc] at h
    exact List.mem_cons.1 h

theorem collectAncestors_reaches (store : ObjectStore) (a : Str) :
    ∀ (fuel : Nat) (queue anc visited : List Str),
      (∀ x ∈ queue, Reaches store a x) → (∀ x ∈ anc, Reaches store a x) →
      ∀ x ∈ collectAncestors store fuel queue anc visited, Reaches store a x := by
  intro fuel
  induction fuel with
  | zero => intro _ _ _ _ hanc x hx; exact hanc x hx
  | succ n ih =>
    intro queue anc visited hq hanc x hx
    match queue with
    | [] => exact hanc x hx
    | cur :: rest =>
      have hcur : Reaches store a cur := hq cur (List.mem_cons_self _ _)
      have hrest : ∀ y ∈ rest, Reaches store a y :=
        fun y hy => hq y (List.mem_cons_of_mem _ hy)
      have hanc' : ∀ y ∈ setInsert cur anc, Reaches store a y := by
        intro y hy
        rcases setInsert_mem hy with rfl | hy'
        · exact hcur
        · exact hanc y hy'
      simp only [collectAncestors] at hx
      cases hload : load_by_hash store cur with
      | none =>
        rw [hload] at hx
        exact ih rest (setInsert cur anc) visited hrest hanc' x hx
      | some c =>
        rw [hload] at hx
        refine ih _ _ _ ?_ hanc' x hx
        intro y hy
        rcases pushQueue_mem hy with hy' | hy'
        · exact hrest y hy'
        · exact Reaches.step hcur hload hy'

theorem bfsFindFirst_spec (store : ObjectStore) (anc : List Str) (b : Str) :
    ∀ (fuel : Nat) (queue visited : List Str) (r : Str),
      (∀ x ∈ queue, Reaches store b x) →
      bfsFindFirst store anc fuel queue visited = some r →
      r ∈ anc ∧ Reaches store b r := by
  intro fuel
  induction fuel with
  | zero => intro _ _ r _ h; exact absurd h (by simp [bfsFindFirst])
  | succ n ih =>
    intro queue visited r hq hr
    match queue with
    | [] => exact absurd hr (by simp [bfsFindFirst])
    | cur :: rest =>
      have hcur : Reaches store b cur := hq cur (List.mem_cons_self _ _)
      have hrest : ∀ y ∈ rest, Reaches store b y :=
        fun y hy => hq y (List.mem_cons_of_mem _ hy)
      simp only [bfsFindFirst] at hr
      by_cases hmem : cur ∈ anc
      · rw [if_pos hmem] at hr
        cases hr
        exact ⟨hmem, hcur⟩
      · rw [if_neg hmem] at hr
        cases hload : load_by_hash store cur with
        | none =>
          rw [hload] at hr
          exact ih rest visited r hrest hr
        | some c =>
          rw [hload] at hr
          refine ih _ _ r ?_ hr
          intro y hy
          rcases pushQueue_mem hy with hy' | hy'
          · exact hrest y hy'
          · exact Reaches.step hcur hload hy'

/-- C5: the claim `find_common_ancestor(A, B) == find_common_ancestor(B, A)`
is refuted by the criss-cross history of `storeC5`: swapping the arguments
swaps the answer between the two roots `x` and `y`. -/
theorem C5_find_common_ancestor_cex :
    _find_common_ancestor storeC5 ['a'] ['b'] = some ['y'] ∧
    _find_common_ancestor storeC5 ['b'] ['a'] = some ['x'] ∧
    (['y'] : Str) ≠ ['x'] := by
  refine ⟨by decide, by decide, by decide⟩

/-- C5 (amended): `_find_common_ancestor` need not be symmetric in its
arguments, but whatever hash it returns is a common ancestor of both
arguments (reachable from each along parent edges). -/
theorem C5_find_common_ancestor_amended (store : ObjectStore) (a b r : Str)
    (h : _find_common_ancestor store a b = some r) :
    Reaches store a r ∧ Reaches store b r := by
  unfold _find_common_ancestor at h
  by_cases h0 : a = [] ∨ b = []
  · rw [if_pos h0] at h; cases h
  · rw [if_neg h0] at h
    by_cases hab : a = b
    · rw [if_pos hab] at h
      cases h
      subst hab
      exact ⟨Reaches.refl _, Reaches.refl _⟩
    · rw [if_neg hab] at h
      have hb := bfsFindFirst_spec store _ b (fcaFuel store) [b] [b] r
        (by intro x hx; simp at hx; rw [hx]; exact Reaches.refl _) h
      refine ⟨?_, hb.2⟩
      exact collectAncestors_reaches store a (fcaFuel store) [a] [] [a]
        (by intro x hx; simp at hx; rw [hx]; exact Reaches.refl _)
        (by intro x hx; exact absurd hx (List.not_mem_nil x))
        r hb.1

theorem C5_find_common_ancestor_amended_witness :
    _find_common_ancestor storeC5 ['a'] ['b'] = some ['y'] ∧
    Reaches storeC5 ['a'] ['y'] ∧ Reaches storeC5 ['b'] ['y'] :=
  ⟨by decide,
   C5_find_common_ancestor_amended storeC5 ['a'] ['b'] ['y'] (by decide)⟩

/-! ## C1 — `Repository::update_ref` (Repository.cpp:2737) -/

/-- Shorthand for character-list literals. -/
def str (s : String) : Str := s.data

/-- Ref files on disk, as a map from full ref name to the first whitespace
token of the file (what `ifs >> current_ref_value_on_server` reads). -/
abbrev RefMap := List (Str × Str)

def lookupAssoc : RefMap → Str → Option Str
  | [], _ => none
  | (k, v) :: rest, n => if k = n then some v else lookupAssoc rest n

/-- Overwrite of a ref file (`std::ofstream` with `trunc`). -/
def setRef : RefMap → Str → Str → RefMap
  | [], n, v => [(n, v)]
  | (k, w) :: rest, n, v =>
    if k = n then (n, v) :: rest else (k, w) :: setRef rest n v

/-- Step 1 of `update_ref`: the ref-name format check. -/
def refNameInvalid (n : Str) : Bool :=
  !(leadsWith (str "refs/heads/") n || leadsWith (str "refs/tags/") n)
  || n.getLast? = some '/'
  || containsRun (str "..") n || containsRun (str "//") n

/-- Step 2 of `update_ref`: shape check on the new hash. -/
def newHashMalformed (h : Str) : Bool := !(h.length = 40 && h.all isHexDigit)

inductive UpdateRefResult
  | SUCCESS
  | REF_NOT_FOUND_FOR_UPDATE
  | OLD_HASH_MISMATCH
  | NEW_COMMIT_NOT_FOUND
  | NOT_FAST_FORWARD
  | IO_ERROR
  | INVALID_REF_NAME
  | UNKNOWN_ERROR
deriving DecidableEq, Repr

/-- `Repository::update_ref` from Repository.cpp:2737, paired with the ref
map after the call.  A ref file whose first token is not 40 characters long
is treated by the code as if the ref did not exist (`ref_existed_on_server`
stays false and the read value is cleared). -/
def update_ref (store : ObjectStore) (refs : RefMap)
    (ref_full_name new_commit_hash : Str)
    (expected_old_commit_hash : Option Str)
    (allow_non_fast_forward : Bool) : UpdateRefResult × RefMap :=
  if refNameInvalid ref_full_name then (.INVALID_REF_NAME, refs)
  else if newHashMalformed new_commit_hash then (.NEW_COMMIT_NOT_FOUND, refs)
  else if (load_by_hash store new_commit_hash).isNone then
    (.NEW_COMMIT_NOT_FOUND, refs)
  else
    let cur? := lookupAssoc refs ref_full_name
    let ref_existed : Bool := match cur? with
      | some v => v.length == 40
      | none => false
    let current := if ref_existed then cur?.getD [] else []
    let tail : UpdateRefResult × RefMap :=
      if leadsWith (str "refs/heads/") ref_full_name && ref_existed &&
         !allow_non_fast_forward && !current.isEmpty &&
         !is_fast_forward store current new_commit_hash then
        (.NOT_FAST_FORWARD, refs)
      else (.SUCCESS, setRef refs ref_full_name new_commit_hash)
    match expected_old_commit_hash with
    | some expected =>
      if !ref_existed then (.REF_NOT_FOUND_FOR_UPDATE, refs)
      else if current ≠ expected then (.OLD_HASH_MISMATCH, refs)
      else tail
    | none => tail

/-- C1: with `expected-old` given (and a well-formed ref name and an
existing new commit, the checks the code runs first): a missing ref file
answers `REF_NOT_FOUND_FOR_UPDATE`, an existing ref whose value differs
from `expected-old` answers `OLD_HASH_MISMATCH`, and in both cases the ref
map is returned unchanged. -/
theorem C1_update_ref_cas (store : ObjectStore) (refs : RefMap)
    (name newh expected : Str) (anf : Bool) (c : Commit)
    (hname : refNameInvalid name = false)
    (hshape : newHashMalformed newh = false)
    (hload : load_by_hash store newh = some c) :
    (lookupAssoc refs name = none →
      update_ref store refs name newh (some expected) anf =
        (.REF_NOT_FOUND_FOR_UPDATE, refs)) ∧
    (∀ v, lookupAssoc refs name = some v → v.length = 40 → v ≠ expected →
      update_ref store refs name newh (some expected) anf =
        (.OLD_HASH_MISMATCH, refs)) := by
  constructor
  · intro hnone
    simp [update_ref, hname, hshape, hload, hnone]
  · intro v hsome hlen hne
    simp [update_ref, hname, hshape, hload, hsome, hlen, hne]

def commitC1 : Commit := mkCommit []

def hashC1 : Str := str "aaaaaaaaaaaaaaaaaaaaaaaaaaaaaaaaaaaaaaaa"

def hashC1b : Str := str "bbbbbbbbbbbbbbbbbbbbbbbbbbbbbbbbbbbbbbbb"

def storeC1 : ObjectStore := [(hashC1, commitC1)]

theorem C1_update_ref_cas_witness :
    refNameInvalid (str "refs/heads/main") = false ∧
    newHashMalformed hashC1 = false ∧
    load_by_hash storeC1 hashC1 = some commitC1 ∧
    (lookupAssoc [] (str "refs/heads/main") = none →
      update_ref storeC1 [] (str "refs/heads/main") hashC1 (some hashC1b) false =
        (.REF_NOT_FOUND_FOR_UPDATE, [])) :=
  ⟨by decide, by decide, by decide,
   (C1_update_ref_cas storeC1 [] (str "refs/heads/main") hashC1 hashC1b false
      commitC1 (by decide) (by decide) (by decide)).1⟩

/-! ## Numeric text helpers
Models of the C++ stream primitives the sources use: `operator<<` on
integers, `operator>>` into integer variables, `std::stoll`, and
`operator>>` into a `std::string` (whitespace-delimited token). -/

/-- `std::isspace` in the default locale. -/
def isSpaceCh (c : Char) : Bool :=
  c = ' ' || c = '\t' || c = '\n' || c = '\x0b' || c = '\x0c' || c = '\r'

def isDigitCh (c : Char) : Bool := '0' ≤ c && c ≤ '9'

/-- The decimal digit character for `n < 10`. -/
def decDigit (n : Nat) : Char := Char.ofNat (48 + n)

/-- Decimal rendering, structurally recursive on a fuel bound so that the
kernel can evaluate it (`fuel > n` always suffices: `n / 10 < n`). -/
def natToStrAux : Nat → Nat → Str
  | 0, _ => []
  | fuel + 1, n =>
    if n < 10 then [decDigit n]
    else natToStrAux fuel (n / 10) ++ [decDigit (n % 10)]

/-- Decimal rendering of a natural number, as `operator<<` prints it. -/
def natToStr (n : Nat) : Str := natToStrAux (n + 1) n

/-- Decimal rendering of a signed integer, as `operator<<` prints it. -/
def intToStr (i : Int) : Str :=
  if i < 0 then '-' :: natToStr (-i).toNat else natToStr i.toNat

/-- Value of a digit string. -/
def digitsVal (s : Str) : Nat := s.foldl (fun a c => a * 10 + (c.toNat - 48)) 0

/-- `operator>>` into a signed integer / `std::stoll`: skip whitespace,
optional sign, then at least one decimal digit; also returns the unread
remainder of the input. -/
def readInt (s : Str) : Option (Int × Str) :=
  let s1 := s.dropWhile isSpaceCh
  let sgn : Int := if s1.head? = some '-' then -1 else 1
  let s2 := if s1.head? = some '-' || s1.head? = some '+' then s1.tail else s1
  let ds := s2.takeWhile isDigitCh
  if ds = [] then none
  else some (sgn * (digitsVal ds : Int), s2.dropWhile isDigitCh)

/-- `operator>>` into a `std::string`: skip whitespace, read a non-empty
run of non-whitespace characters. -/
def readToken (s : Str) : Option (Str × Str) :=
  let s1 := s.dropWhile isSpaceCh
  let t := s1.takeWhile (fun c => !isSpaceCh c)
  if t = [] then none else some (t, s1.dropWhile (fun c => !isSpaceCh c))

theorem toNat_decDigit {n : Nat} (h : n < 10) : (decDigit n).toNat = 48 + n := by
  interval_cases n <;> decide

theorem isDigitCh_decDigit {n : Nat} (h : n < 10) :
    isDigitCh (decDigit n) = true := by
  interval_cases n <;> decide

theorem decDigit_not_space {n : Nat} (h : n < 10) :
    isSpaceCh (decDigit n) = false := by
  interval_cases n <;> decide

theorem decDigit_ne_minus {n : Nat} (h : n < 10) : decDigit n ≠ '-' := by
  interval_cases n <;> decide

theorem decDigit_ne_plus {n : Nat} (h : n < 10) : decDigit n ≠ '+' := by
  interval_cases n <;> decide

theorem natToStrAux_ne_nil :
    ∀ (fuel n : Nat), n < fuel → natToStrAux fuel n ≠ [] := by
  intro fuel
  induction fuel with
  | zero => intro n h; omega
  | succ f ih =>
    intro n _
    rw [natToStrAux]
    split
    · simp
    · next h =>
      have := ih (n / 10) (by omega)
      simp

theorem natToStr_ne_nil (n : Nat) : natToStr n ≠ [] :=
  natToStrAux_ne_nil (n + 1) n (by omega)

theorem natToStrAux_all_digits :
    ∀ (fuel n : Nat), n < fuel → ∀ c ∈ natToStrAux fuel n, isDigitCh c = true := by
  intro fuel
  induction fuel with
  | zero => intro n h; omega
  | succ f ih =>
    intro n hn c hc
    rw [natToStrAux] at hc
    split at hc
    · next h =>
      simp at hc
      rw [hc]
      exact isDigitCh_decDigit h
    · next h =>
      rcases List.mem_append.1 hc with hc' | hc'
      · exact ih (n / 10) (by omega) c hc'
      · simp at hc'
        rw [hc']
        exact isDigitCh_decDigit (Nat.mod_lt n (by omega))

theorem natToStr_all_digits (n : Nat) :
    ∀ c ∈ natToStr n, isDigitCh c = true :=
  natToStrAux_all_digits (n + 1) n (by omega)

theorem digitsVal_natToStrAux :
    ∀ (fuel n : Nat), n < fuel → digitsVal (natToStrAux fuel n) = n := by
  intro fuel
  induction fuel with
  | zero => intro n h; omega
  | succ f ih =>
    intro n hn
    rw [natToStrAux]
    split
    · next h =>
      simp [digitsVal, toNat_decDigit h]
    · next h =>
      have hstep : digitsVal (natToStrAux f (n / 10) ++ [decDigit (n % 10)]) =
          digitsVal (natToStrAux f (n / 10)) * 10 +
            ((decDigit (n % 10)).toNat - 48) := by
        simp [digitsVal, List.foldl_append]
      rw [hstep, ih (n / 10) (by omega),
        toNat_decDigit (Nat.mod_lt n (by omega))]
      omega

theorem digitsVal_natToStr (n : Nat) : digitsVal (natToStr n) = n :=
  digitsVal_natToStrAux (n + 1) n (by omega)

theorem takeWhile_all_append {p : Char → Bool} {l rest : Str}
    (hl : ∀ c ∈ l, p c = true) :
    (l ++ rest).takeWhile p = l ++ rest.takeWhile p := by
  induction l with
  | nil => rfl
  | cons c cs ih =>
    have hc : p c = true := hl c (List.mem_cons_self _ _)
    simp only [List.cons_append, List.takeWhile_cons, hc, if_true]
    rw [ih (fun d hd => hl d (List.mem_cons_of_mem _ hd))]

theorem dropWhile_all_append {p : Char → Bool} {l rest : Str}
    (hl : ∀ c ∈ l, p c = true) :
    (l ++ rest).dropWhile p = rest.dropWhile p := by
  induction l with
  | nil => rfl
  | cons c cs ih =>
    have hc : p c = true := hl c (List.mem_cons_self _ _)
    simp only [List.cons_append, List.dropWhile_cons, hc, if_true]
    exact ih (fun d hd => hl d (List.mem_cons_of_mem _ hd))

/-- Heads that fail `p` stop `takeWhile` immediately. -/
theorem takeWhile_head_neg {p : Char → Bool} {rest : Str}
    (h : ∀ c, rest.head? = some c → p c = false) :
    rest.takeWhile p = [] := by
  cases rest with
  | nil => rfl
  | cons c cs => simp [List.takeWhile_cons, h c rfl]

theorem dropWhile_head_neg {p : Char → Bool} {rest : Str}
    (h : ∀ c, rest.head? = some c → p c = false) :
    rest.dropWhile p = rest := by
  cases rest with
  | nil => rfl
  | cons c cs => simp [List.dropWhile_cons, h c rfl]

theorem not_space_of_digit {d : Char} (h1 : 48 ≤ d.toNat) (h2 : d.toNat ≤ 57) :
    isSpaceCh d = false := by
  simp only [isSpaceCh, Bool.or_eq_false_iff, decide_eq_false_iff_not]
  refine ⟨⟨⟨⟨⟨?_, ?_⟩, ?_⟩, ?_⟩, ?_⟩, ?_⟩ <;> (rintro rfl; revert h1 h2; decide)

theorem ne_minus_of_digit {d : Char} (h1 : 48 ≤ d.toNat) : d ≠ '-' := by
  rintro rfl; revert h1; decide

theorem ne_plus_of_digit {d : Char} (h1 : 48 ≤ d.toNat) : d ≠ '+' := by
  rintro rfl; revert h1; decide

theorem readInt_natToStr (n : Nat) (rest : Str)
    (hrest : ∀ c, rest.head? = some c → isDigitCh c = false) :
    readInt (natToStr n ++ rest) = some ((n : Int), rest) := by
  obtain ⟨d, ds, hds⟩ : ∃ d ds, natToStr n = d :: ds := by
    cases h : natToStr n with
    | nil => exact absurd h (natToStr_ne_nil n)
    | cons d ds => exact ⟨d, ds, rfl⟩
  have hd : isDigitCh d = true :=
    natToStr_all_digits n d (hds ▸ List.mem_cons_self _ _)
  have hd10 : 48 ≤ d.toNat ∧ d.toNat ≤ 57 := by
    simp only [isDigitCh, Bool.and_eq_true, decide_eq_true_eq] at hd
    exact ⟨hd.1, hd.2⟩
  have hdnsp : isSpaceCh d = false := not_space_of_digit hd10.1 hd10.2
  have hdrop : (natToStr n ++ rest).dropWhile isSpaceCh = natToStr n ++ rest := by
    rw [hds, List.cons_append, List.dropWhile_cons, hdnsp]
    simp
  have hhead : (natToStr n ++ rest).head? = some d := by
    rw [hds]; rfl
  have htake : (natToStr n ++ rest).takeWhile isDigitCh = natToStr n := by
    rw [takeWhile_all_append (natToStr_all_digits n), takeWhile_head_neg hrest,
      List.append_nil]
  have hdropd : (natToStr n ++ rest).dropWhile isDigitCh = rest := by
    rw [dropWhile_all_append (natToStr_all_digits n), dropWhile_head_neg hrest]
  have hnm : d ≠ '-' := ne_minus_of_digit hd10.1
  have hnp : d ≠ '+' := ne_plus_of_digit hd10.1
  simp only [readInt, hdrop, hhead]
  rw [if_neg (show ¬(some d = some '-') from by simp [hnm])]
  rw [if_neg (show ¬((decide (some d = some '-') || decide (some d = some '+'))
    = true) from by simp [hnm, hnp])]
  rw [htake, hdropd, if_neg (natToStr_ne_nil n), digitsVal_natToStr]
  simp

theorem readInt_intToStr (i : Int) (rest : Str)
    (hrest : ∀ c, rest.head? = some c → isDigitCh c = false) :
    readInt (intToStr i ++ rest) = some (i, rest) := by
  by_cases hneg : i < 0
  · rw [intToStr, if_pos hneg]
    have htake : (natToStr (-i).toNat ++ rest).takeWhile isDigitCh
        = natToStr (-i).toNat := by
      rw [takeWhile_all_append (natToStr_all_digits _), takeWhile_head_neg hrest,
        List.append_nil]
    have hdropd : (natToStr (-i).toNat ++ rest).dropWhile isDigitCh = rest := by
      rw [dropWhile_all_append (natToStr_all_digits _), dropWhile_head_neg hrest]
    have hstep : ('-' :: natToStr (-i).toNat) ++ rest
        = '-' :: (natToStr (-i).toNat ++ rest) := by simp
    rw [hstep]
    have h1 : List.dropWhile isSpaceCh ('-' :: (natToStr (-i).toNat ++ rest))
        = '-' :: (natToStr (-i).toNat ++ rest) := by
      rw [List.dropWhile_cons]
      simp only [show isSpaceCh '-' = false from rfl, Bool.false_eq_true, if_false]
    simp only [readInt, h1, List.head?_cons]
    simp only [decide_True, Bool.true_or, eq_self_iff_true, if_true, List.tail_cons]
    rw [htake, hdropd, if_neg (natToStr_ne_nil _), digitsVal_natToStr]
    have : (-1 : Int) * ((-i).toNat : Int) = i := by
      rw [Int.toNat_of_nonneg (by omega)]
      ring
    rw [this]
  · rw [intToStr, if_neg hneg, readInt_natToStr _ rest hrest,
      Int.toNat_of_nonneg (by omega)]

/-! ## C9 — `TokenManager::generateToken` / `validateToken`
(UserManager.cpp:223 and 248)

The SHA-1 primitive is an external collaborator of the spec (§1, "referenced
only by contract"); it is modelled as a function parameter.  The manager is
modelled after `initialize` has succeeded, so `m_serverSecret` is fixed and
`m_initialized` is true. -/

def notColon (c : Char) : Bool := decide (c ≠ ':')

def notNl (c : Char) : Bool := decide (c ≠ '\n')

/-- `std::getline(stream, part, ':')` on the unread remainder of a
`std::stringstream`: fails iff no character can be extracted; otherwise
yields the characters before the first `':'` and consumes that `':'`. -/
def getlineColon (s : Str) : Option (Str × Str) :=
  if s = [] then none
  else some (s.takeWhile notColon, (s.dropWhile notColon).drop 1)

/-- `std::getline(stream, part)` with the default `'\n'` delimiter. -/
def getlineNl (s : Str) : Option (Str × Str) :=
  if s = [] then none
  else some (s.takeWhile notNl, (s.dropWhile notNl).drop 1)

/-- `TokenManager::generateToken` (UserManager.cpp:223): stamp
`expiry = now + duration` and emit `username:expiry:SHA1(payload+secret)`. -/
def generateToken (sha1 : Str → Str) (secret : Str)
    (username : Str) (now duration_seconds : Int) : Str :=
  if username = [] ∨ ':' ∈ username then []
  else
    let payload := username ++ ':' :: intToStr (now + duration_seconds)
    payload ++ ':' :: sha1 (payload ++ secret)

/-- `TokenManager::validateToken` (UserManager.cpp:248): split on `':'`,
recompute the signature, compare, parse the expiry with `std::stoll`, and
reject strictly-expired tokens; on success return the username. -/
def validateToken (sha1 : Str → Str) (secret : Str) (now : Int)
    (token : Str) : Option Str :=
  match getlineColon token with
  | none => none
  | some (username_part, r1) =>
    match getlineColon r1 with
    | none => none
    | some (expiry_str, r2) =>
      match getlineNl r2 with
      | none => none
      | some (signature_part, _) =>
        if sha1 ((username_part ++ ':' :: expiry_str) ++ secret) ≠ signature_part
        then none
        else
          match readInt expiry_str with
          | none => none
          | some (expiry, _) =>
            if now > expiry then none else some username_part

theorem digit_ne_colon {c : Char} (h : isDigitCh c = true) : c ≠ ':' := by
  rintro rfl
  exact absurd h (by decide)

theorem intToStr_ne_colon (i : Int) : ∀ c ∈ intToStr i, notColon c = true := by
  intro c hc
  unfold intToStr at hc
  split at hc
  · rcases List.mem_cons.1 hc with rfl | hc'
    · decide
    · simp [notColon, digit_ne_colon (natToStr_all_digits _ c hc')]
  · simp [notColon, digit_ne_colon (natToStr_all_digits _ c hc)]

/-- Splitting `username ++ ':' :: rest` at the first colon recovers
`username` and `rest` when `username` is colon-free. -/
theorem getlineColon_clean {username rest : Str}
    (hu : ∀ c ∈ username, notColon c = true) :
    getlineColon (username ++ ':' :: rest) = some (username, rest) := by
  have hne : username ++ ':' :: rest ≠ [] := by simp
  rw [getlineColon, if_neg hne, takeWhile_all_append hu, dropWhile_all_append hu]
  simp [notColon]

theorem C9_token_roundtrip (sha1 : Str → Str) (secret username : Str)
    (now now1 now2 : Int)
    (hu1 : username ≠ []) (hu2 : ':' ∉ username)
    (hsig1 : sha1 ((username ++ ':' :: intToStr (now + 3600)) ++ secret) ≠ [])
    (hsig2 : '\n' ∉ sha1 ((username ++ ':' :: intToStr (now + 3600)) ++ secret))
    (hbefore : now1 ≤ now + 3600) (hafter : now2 > now + 3600) :
    generateToken sha1 secret username now 3600 =
      (username ++ ':' :: intToStr (now + 3600)) ++
        ':' :: sha1 ((username ++ ':' :: intToStr (now + 3600)) ++ secret) ∧
    validateToken sha1 secret now1 (generateToken sha1 secret username now 3600)
      = some username ∧
    validateToken sha1 secret now2 (generateToken sha1 secret username now 3600)
      = none := by
  set sig := sha1 ((username ++ ':' :: intToStr (now + 3600)) ++ secret) with hsig
  have hgen : generateToken sha1 secret username now 3600 =
      (username ++ ':' :: intToStr (now + 3600)) ++ ':' :: sig := by
    rw [generateToken, if_neg (by push_neg; exact ⟨hu1, hu2⟩)]
  have huser : ∀ c ∈ username, notColon c = true := by
    intro c hc
    simp only [notColon, decide_eq_true_eq]
    rintro rfl
    exact hu2 hc
  have hsplit1 : getlineColon (generateToken sha1 secret username now 3600) =
      some (username, intToStr (now + 3600) ++ ':' :: sig) := by
    rw [hgen, List.append_assoc, List.cons_append]
    exact getlineColon_clean huser
  have hsplit2 : getlineColon (intToStr (now + 3600) ++ ':' :: sig) =
      some (intToStr (now + 3600), sig) :=
    getlineColon_clean (intToStr_ne_colon _)
  have hsplit3 : getlineNl sig = some (sig, (sig.dropWhile notNl).drop 1) := by
    rw [getlineNl, if_neg hsig1]
    congr 2
    rw [List.takeWhile_eq_self_iff.2]
    intro c hc
    simp only [notNl, decide_eq_true_eq]
    rintro rfl
    exact hsig2 hc
  have hparse : readInt (intToStr (now + 3600)) = some (now + 3600, []) := by
    have := readInt_intToStr (now + 3600) []
      (by intro c hc; cases hc)
    simpa using this
  refine ⟨hgen, ?_, ?_⟩
  · rw [validateToken, hsplit1]
    simp only [hsplit2, hsplit3, hparse]
    rw [if_neg (by simp [hsig]), if_neg (by omega)]
  · rw [validateToken, hsplit1]
    simp only [hsplit2, hsplit3, hparse]
    rw [if_neg (by simp [hsig]), if_pos (by omega)]

def sha1Dummy : Str → Str := fun _ => str "da39a3ee5e6b4b0d3255bfef95601890afd80709"

theorem C9_token_roundtrip_witness :
    (str "alice" ≠ []) ∧ (':' ∉ str "alice") ∧
    validateToken sha1Dummy (str "s3cret") 100
        (generateToken sha1Dummy (str "s3cret") (str "alice") 0 3600)
      = some (str "alice") ∧
    validateToken sha1Dummy (str "s3cret") 4000
        (generateToken sha1Dummy (str "s3cret") (str "alice") 0 3600)
      = none := by
  have h := C9_token_roundtrip sha1Dummy (str "s3cret") (str "alice") 0 100 4000
    (by decide) (by decide) (by decide) (by decide) (by omega) (by omega)
  exact ⟨by decide, by decide, h.2.1, h.2.2⟩

/-! ## C7 — `Index::load` (Index.cpp:85) -/

/-- An index entry (`IndexEntry` in Index.h); the mtime is kept as the two
numbers the file stores, the size modulo 2^64 as the `uint64_t` holds it.
`lexically_normal` path normalization is an out-of-scope filesystem utility
(spec §1) and is not applied. -/
structure IndexEntry where
  mode : Str
  blob_hash_hex : Str
  mtime_sec : Int
  mtime_nsec : Int
  file_size : Nat
  file_path : Str
deriving DecidableEq, Repr

/-- `IndexEntry::parse_from_line` (Index.cpp:27): five `>>` extractions,
an optional single-space skip, then the rest of the line as the path;
any extraction failure, an empty path, or a hash whose length is not 40
yields `std::nullopt`. -/
def parse_from_line (line : Str) : Option IndexEntry :=
  match readToken line with
  | none => none
  | some (mode, r1) =>
    match readToken r1 with
    | none => none
    | some (hash, r2) =>
      match readInt r2 with
      | none => none
      | some (sec, r3) =>
        match readInt r3 with
        | none => none
        | some (nsec, r4) =>
          match readInt r4 with
          | none => none
          | some (size, r5) =>
            let r6 := if r5.head? = some ' ' then r5.tail else r5
            let path := r6.takeWhile notNl
            if path = [] then none
            else if hash.length ≠ 40 then none
            else some ⟨mode, hash, sec, nsec, (size % (2 : Int) ^ 64).toNat, path⟩

/-- The blank-line test of `Index::load`:
`line.find_first_not_of(" \t\n\v\f\r") == npos`. -/
def isBlankLine (line : Str) : Bool := line.all isSpaceCh

/-- `std::sort(entries_)` with `IndexEntry::operator<` (path order). -/
def sortEntries (es : List IndexEntry) : List IndexEntry :=
  es.insertionSort (fun a b => a.file_path ≤ b.file_path)

/-- The line loop of `Index::load`: skip blank lines, append parsed
entries, and on the first unparseable non-blank line fail with the
in-memory list cleared; on success the entries are sorted. -/
def loadLines : List Str → List IndexEntry → Bool × List IndexEntry
  | [], acc => (true, sortEntries acc)
  | l :: ls, acc =>
    if isBlankLine l then loadLines ls acc
    else
      match parse_from_line l with
      | some e => loadLines ls (acc ++ [e])
      | none => (false, [])

/-- `Index::load` (Index.cpp:85).  The index file is `none` when missing,
otherwise the list of its lines; the result pairs the returned `bool`
with the in-memory entry list after the call. -/
def Index_load : Option (List Str) → Bool × List IndexEntry
  | none => (true, [])
  | some lines => loadLines lines []

theorem loadLines_fail (l : Str)
    (hblank : isBlankLine l = false) (hparse : parse_from_line l = none) :
    ∀ (lines : List Str) (acc : List IndexEntry), l ∈ lines →
      loadLines lines acc = (false, []) := by
  intro lines
  induction lines with
  | nil => intro acc h; cases h
  | cons l0 ls ih =>
    intro acc hmem
    by_cases hb : isBlankLine l0 = true
    · have hl : l ∈ ls := by
        rcases List.mem_cons.1 hmem with rfl | h
        · rw [hblank] at hb; cases hb
        · exact h
      simp only [loadLines, hb, if_true]
      exact ih acc hl
    · simp only [loadLines, hb, if_false]
      cases hp : parse_from_line l0 with
      | none => rfl
      | some e =>
        have hl : l ∈ ls := by
          rcases List.mem_cons.1 hmem with rfl | h
          · rw [hparse] at hp; cases hp
          · exact h
        exact ih _ hl

theorem loadLines_skip_blank :
    ∀ (lines : List Str) (acc : List IndexEntry),
      loadLines (lines.filter (fun x => !isBlankLine x)) acc =
        loadLines lines acc := by
  intro lines
  induction lines with
  | nil => intro acc; rfl
  | cons l0 ls ih =>
    intro acc
    by_cases hb : isBlankLine l0 = true
    · simp only [List.filter_cons, hb, Bool.not_true, if_false, loadLines, if_true]
      exact ih acc
    · have hb' : isBlankLine l0 = false := by
        cases h : isBlankLine l0
        · rfl
        · exact absurd h hb
      simp only [List.filter_cons, hb', Bool.not_false, if_true, loadLines, if_false]
      cases hp : parse_from_line l0 with
      | none => rfl
      | some e => exact ih _

/-- C7: a missing index file loads as success with no entries; an
unparseable non-blank line anywhere fails the load and clears the
in-memory entries; blank (whitespace-only) lines are skipped without
affecting the outcome. -/
theorem C7_index_load (lines : List Str) (l : Str) :
    Index_load none = (true, []) ∧
    (l ∈ lines → isBlankLine l = false → parse_from_line l = none →
      Index_load (some lines) = (false, [])) ∧
    Index_load (some (lines.filter (fun x => !isBlankLine x))) =
      Index_load (some lines) := by
  refine ⟨rfl, ?_, loadLines_skip_blank lines []⟩
  intro hmem hblank hparse
  exact loadLines_fail l hblank hparse lines [] hmem

theorem C7_index_load_witness :
    (str "garbage" ∈ [str "  ", str "garbage"]) ∧
    isBlankLine (str "garbage") = false ∧
    parse_from_line (str "garbage") = none ∧
    Index_load (some [str "  ", str "garbage"]) = (false, []) := by
  have h := (C7_index_load [str "  ", str "garbage"] (str "garbage")).2.1
  exact ⟨by decide, by decide, by decide, h (by decide) (by decide) (by decide)⟩

/-! ## C4 / C8 — the object store entities (object.cpp)

Object bytes are modelled as `Str` (one `Char` per `std::byte`).  Each
kind's `serialize` produces `<type> <size>\x00<body>`; the `deserialize`
functions consume the body, exactly as `read_and_parse_object_file` hands
it to them. -/

def notSpaceCh (c : Char) : Bool := decide (c ≠ ' ')

def notNulCh (c : Char) : Bool := decide (c ≠ '\x00')

structure Blob where
  content : Str
deriving DecidableEq, Repr

/-- Body of `Blob::serialize` (object.cpp:91): the raw content. -/
def Blob.serializeBody (b : Blob) : Str := b.content

/-- `Blob::serialize`: `blob <size>\x00<content>`. -/
def Blob.serialize (b : Blob) : Str :=
  str "blob " ++ natToStr b.content.length ++ '\x00' :: b.serializeBody

/-- `Blob::deserialize` (object.cpp:104): the body is the content. -/
def Blob.deserialize (raw : Str) : Option Blob := some ⟨raw⟩

structure TreeEntry where
  mode : Str
  name : Str
  sha1_hash_hex : Str
deriving DecidableEq, Repr

/-- `TreeEntry::is_directory` (object.cpp:229). -/
def TreeEntry.is_directory (e : TreeEntry) : Bool := e.mode = str "040000"

/-- `TreeEntry::serialize` (object.cpp:233): `<mode> <name>\x00<40-hex>`. -/
def TreeEntry.serialize (e : TreeEntry) : Str :=
  e.mode ++ ' ' :: e.name ++ '\x00' :: e.sha1_hash_hex

structure Tree where
  entries : List TreeEntry
deriving DecidableEq, Repr

/-- The directory-aware sort key of `Tree::sort_entries` (object.cpp:254):
the entry name with `'/'` appended iff the entry is a subtree. -/
def sortKey (e : TreeEntry) : Str :=
  if e.is_directory then e.name ++ ['/'] else e.name

/-- `Tree::sort_entries`: sort by `sortKey` (`std::sort` with `<` on the
keys; any correct sort yields the same sorted order up to equal keys). -/
def Tree.sort_entries (t : Tree) : Tree :=
  ⟨t.entries.insertionSort (fun a b => sortKey a ≤ sortKey b)⟩

/-- `Tree::add_entry` (object.cpp:269): reject a hash whose length is not
40, otherwise push the entry and re-sort. -/
def Tree.add_entry (t : Tree) (e : TreeEntry) : Tree :=
  if e.sha1_hash_hex.length ≠ 40 then t
  else Tree.sort_entries ⟨t.entries ++ [e]⟩

/-- Body of `Tree::serialize` (object.cpp:285): the concatenation of the
entry encodings in entry-list order. -/
def Tree.serializeBody (t : Tree) : Str :=
  (t.entries.map TreeEntry.serialize).flatten

/-- `Tree::serialize`: `tree <size>\x00<entries>`. -/
def Tree.serialize (t : Tree) : Str :=
  str "tree " ++ natToStr t.serializeBody.length ++ '\x00' :: t.serializeBody

/-- One iteration of the `Tree::deserialize` loop (object.cpp:303):
mode up to `' '`, name up to `'\x00'`, then exactly 40 hash characters. -/
def parseTreeEntry (cs : Str) : Option (TreeEntry × Str) :=
  match cs.dropWhile notSpaceCh with
  | [] => none
  | _ :: r1 =>
    match r1.dropWhile notNulCh with
    | [] => none
    | _ :: r3 =>
      if r3.length < 40 then none
      else
        some (⟨cs.takeWhile notSpaceCh, r1.takeWhile notNulCh, r3.take 40⟩,
          r3.drop 40)

/-- The `while (current_pos < size)` loop of `Tree::deserialize`; the fuel
is the input length, which bounds the iteration count because every
entry consumes at least one character. -/
def parseTreeEntries : Nat → Str → Option (List TreeEntry)
  | _, [] => some []
  | 0, _ :: _ => none
  | fuel + 1, cs =>
    match parseTreeEntry cs with
    | none => none
    | some (e, rest) => (parseTreeEntries fuel rest).map (e :: ·)

/-- `Tree::deserialize` on a body. -/
def Tree.deserialize (raw : Str) : Option Tree :=
  (parseTreeEntries raw.length raw).map Tree.mk

/-- `PersonTimestamp::format_for_commit` (object.cpp:441):
`<name> <<email>> <unix-seconds> <tz>`. -/
def PersonTimestamp.format_for_commit (p : PersonTimestamp) : Str :=
  p.name ++ ' ' :: '<' :: p.email ++ '>' :: ' ' ::
    intToStr p.timestamp ++ ' ' :: p.timezone_offset

/-- `PersonTimestamp::parse_from_line_content` (object.cpp:450): locate the
first `'<'` and first `'>'` (fail when missing or when `'>'` comes first),
take the name before `'<'` popping one trailing space, the email between,
then read the timestamp and timezone with `operator>>`. -/
def PersonTimestamp.parse_from_line_content (line : Str) :
    Option PersonTimestamp :=
  match line.dropWhile (fun c => decide (c ≠ '<')) with
  | [] => none
  | _ :: afterLt =>
    let name0 := line.takeWhile (fun c => decide (c ≠ '<'))
    if '>' ∈ name0 then none
    else
      match afterLt.dropWhile (fun c => decide (c ≠ '>')) with
      | [] => none
      | _ :: afterGt =>
        let name1 := if name0.getLast? = some ' ' then name0.dropLast else name0
        if name1 = [] then none
        else
          match readInt afterGt with
          | none => none
          | some (ts, restC) =>
            match readToken restC with
            | none => none
            | some (tz, _) =>
              some ⟨name1, afterLt.takeWhile (fun c => decide (c ≠ '>')), ts, tz⟩

/-- Body of `Commit::serialize` (object.cpp:491): the `tree` line, the
`parent` lines, `author`, `committer`, a blank line, then the message
verbatim. -/
def Commit.serializeBody (c : Commit) : Str :=
  (str "tree" ++ ' ' :: c.tree_hash_hex ++ ['\n']) ++
  (c.parent_hashes_hex.map (fun p => (str "parent" ++ ' ' :: p) ++ ['\n'])).flatten ++
  (str "author" ++ ' ' :: c.author.format_for_commit ++ ['\n']) ++
  (str "committer" ++ ' ' :: c.committer.format_for_commit ++ ['\n']) ++
  '\n' :: c.message

/-- `Commit::serialize`: `commit <size>\x00<body>`. -/
def Commit.serialize (c : Commit) : Str :=
  str "commit " ++ natToStr c.serializeBody.length ++ '\x00' :: c.serializeBody

/-- `std::getline` over a whole stream: the list of lines (a final line
without `'\n'` is returned too; a trailing `'\n'` does not open a new
line). -/
def getlines : Str → List Str
  | [] => []
  | c :: cs =>
    if c = '\n' then [] :: getlines cs
    else
      match getlines cs with
      | [] => [[c]]
      | l :: ls => (c :: l) :: ls

/-- Message reconstruction of `Commit::deserialize` (object.cpp:569):
first line, then `"\n" + line` for each further line. -/
def joinLines : List Str → Str
  | [] => []
  | l :: ls => l ++ (ls.map ('\n' :: ·)).flatten

/-- Parser state of the `Commit::deserialize` line loop. -/
structure CommitParseState where
  tree : Str
  parents : List Str
  author : Option PersonTimestamp
  committer : Option PersonTimestamp
  inMeta : Bool
  msgLines : List Str
deriving DecidableEq, Repr

/-- One line of the `Commit::deserialize` loop (object.cpp:523): in the
metadata section a blank line switches to the message section, otherwise
the word before the first space selects the field (unknown keys only warn);
after the blank line every line is part of the message. -/
def processLine (st : CommitParseState) (line : Str) : Option CommitParseState :=
  if st.inMeta then
    if line = [] then some { st with inMeta := false }
    else
      match line.dropWhile notSpaceCh with
      | [] => none
      | _ :: value =>
        let key := line.takeWhile notSpaceCh
        if key = str "tree" then
          if st.tree ≠ [] then none
          else if value.length ≠ 40 then none
          else some { st with tree := value }
        else if key = str "parent" then
          if value.length ≠ 40 then none
          else some { st with parents := st.parents ++ [value] }
        else if key = str "author" then
          match PersonTimestamp.parse_from_line_content value with
          | none => none
          | some p => some { st with author := some p }
        else if key = str "committer" then
          match PersonTimestamp.parse_from_line_content value with
          | none => none
          | some p => some { st with committer := some p }
        else some st
  else some { st with msgLines := st.msgLines ++ [line] }

def runLines : CommitParseState → List Str → Option CommitParseState
  | st, [] => some st
  | st, l :: ls =>
    match processLine st l with
    | none => none
    | some st' => runLines st' ls

/-- `Commit::deserialize` on a body: run the line loop from the empty
state, then require a tree and parsed author/committer (the C++ final
checks: non-empty tree hash and non-empty person names). -/
def Commit.deserialize (raw : Str) : Option Commit :=
  match runLines ⟨[], [], none, none, true, []⟩ (getlines raw) with
  | none => none
  | some st =>
    if st.tree = [] then none
    else
      match st.author, st.committer with
      | some a, some co => some ⟨st.tree, st.parents, a, co, joinLines st.msgLines⟩
      | _, _ => none

/-- Well-formedness a `TreeEntry` needs for its encoding to be parsed
back: no space in the mode, no NUL in the name, a 40-character hash. -/
def TreeEntry.wf (e : TreeEntry) : Prop :=
  (∀ c ∈ e.mode, c ≠ ' ') ∧ (∀ c ∈ e.name, c ≠ '\x00') ∧
  e.sha1_hash_hex.length = 40

instance (e : TreeEntry) : Decidable e.wf := by
  unfold TreeEntry.wf; infer_instance

/-- Well-formedness of a person record: what `format_for_commit` needs for
`parse_from_line_content` to read it back. -/
def PersonTimestamp.wf (p : PersonTimestamp) : Prop :=
  p.name ≠ [] ∧ '<' ∉ p.name ∧ '>' ∉ p.name ∧ '\n' ∉ p.name ∧
  '>' ∉ p.email ∧ '\n' ∉ p.email ∧
  p.timezone_offset ≠ [] ∧ ∀ c ∈ p.timezone_offset, isSpaceCh c = false

instance (p : PersonTimestamp) : Decidable p.wf := by
  unfold PersonTimestamp.wf; infer_instance

/-- Well-formedness of a commit record: 40-character hashes free of
newlines, and well-formed person records. -/
def Commit.wf (c : Commit) : Prop :=
  c.tree_hash_hex.length = 40 ∧ '\n' ∉ c.tree_hash_hex ∧
  (∀ p ∈ c.parent_hashes_hex, p.length = 40 ∧ '\n' ∉ p) ∧
  c.author.wf ∧ c.committer.wf

instance (c : Commit) : Decidable c.wf := by
  unfold Commit.wf; infer_instance

instance treeKeyTotal : IsTotal TreeEntry (fun a b => sortKey a ≤ sortKey b) :=
  ⟨fun _ _ => le_total _ _⟩

instance treeKeyTrans : IsTrans TreeEntry (fun a b => sortKey a ≤ sortKey b) :=
  ⟨fun _ _ _ hab hbc => le_trans hab hbc⟩

/-- C8: after every insertion `add_entry` performs (a hash of length 40 is
accepted and triggers the re-sort), the entry list is sorted by the
directory-aware key — the name with `'/'` appended iff the entry is a
subtree — and the body `serialize` emits is the concatenation of the entry
encodings in exactly that list order. -/
theorem C8_tree_sort_invariant (t : Tree) (e : TreeEntry)
    (h : e.sha1_hash_hex.length = 40) :
    List.Sorted (fun a b => sortKey a ≤ sortKey b) (t.add_entry e).entries ∧
    (t.add_entry e).serializeBody =
      ((t.add_entry e).entries.map TreeEntry.serialize).flatten := by
  constructor
  · rw [Tree.add_entry, if_neg (fun hn => hn h)]
    exact List.sorted_insertionSort _ _
  · rfl

def entryC8a : TreeEntry := ⟨str "100644", str "zz.txt", str (String.mk (List.replicate 40 'a'))⟩

def entryC8b : TreeEntry := ⟨str "040000", str "dir", str (String.mk (List.replicate 40 'b'))⟩

theorem C8_tree_sort_invariant_witness :
    entryC8a.sha1_hash_hex.length = 40 ∧
    List.Sorted (fun a b => sortKey a ≤ sortKey b)
      ((Tree.mk [entryC8b]).add_entry entryC8a).entries :=
  ⟨by decide,
   (C8_tree_sort_invariant (Tree.mk [entryC8b]) entryC8a (by decide)).1⟩

/-! ### Tree round trip (for C4) -/

theorem parseTreeEntry_serialize (e : TreeEntry) (rest : Str) (hwf : e.wf) :
    parseTreeEntry (e.serialize ++ rest) = some (e, rest) := by
  obtain ⟨hm, hn, hh⟩ := hwf
  have hmode : ∀ c ∈ e.mode, notSpaceCh c = true := by
    intro c hc; simpa [notSpaceCh] using hm c hc
  have hname : ∀ c ∈ e.name, notNulCh c = true := by
    intro c hc; simpa [notNulCh] using hn c hc
  have hshape : e.serialize ++ rest
      = e.mode ++ ' ' :: (e.name ++ '\x00' :: (e.sha1_hash_hex ++ rest)) := by
    simp [TreeEntry.serialize]
  have hdrop1 : (e.mode ++ ' ' :: (e.name ++ '\x00' ::
      (e.sha1_hash_hex ++ rest))).dropWhile notSpaceCh
      = ' ' :: (e.name ++ '\x00' :: (e.sha1_hash_hex ++ rest)) := by
    rw [dropWhile_all_append hmode, List.dropWhile_cons]
    simp [notSpaceCh]
  have htake1 : (e.mode ++ ' ' :: (e.name ++ '\x00' ::
      (e.sha1_hash_hex ++ rest))).takeWhile notSpaceCh = e.mode := by
    rw [takeWhile_all_append hmode, List.takeWhile_cons]
    simp [notSpaceCh]
  have hdrop2 : (e.name ++ '\x00' :: (e.sha1_hash_hex ++ rest)).dropWhile notNulCh
      = '\x00' :: (e.sha1_hash_hex ++ rest) := by
    rw [dropWhile_all_append hname, List.dropWhile_cons]
    simp [notNulCh]
  have htake2 : (e.name ++ '\x00' :: (e.sha1_hash_hex ++ rest)).takeWhile notNulCh
      = e.name := by
    rw [takeWhile_all_append hname, List.takeWhile_cons]
    simp [notNulCh]
  rw [hshape, parseTreeEntry]
  simp only [hdrop1, htake1, hdrop2, htake2]
  rw [if_neg (by simp [List.length_append, hh])]
  rw [List.take_left' hh, List.drop_left' hh]

theorem length_le_serialize_flatten (es : List TreeEntry) :
    es.length ≤ ((es.map TreeEntry.serialize).flatten).length := by
  induction es with
  | nil => simp
  | cons e es ih =>
    simp only [List.map_cons, List.flatten_cons, List.length_append,
      List.length_cons]
    have : 1 ≤ e.serialize.length := by
      simp [TreeEntry.serialize]
      omega
    omega

theorem parseTreeEntries_cons_eq (fuel : Nat) (cs : Str) (h : cs ≠ []) :
    parseTreeEntries (fuel + 1) cs =
      match parseTreeEntry cs with
      | none => none
      | some (e, rest) => (parseTreeEntries fuel rest).map (e :: ·) := by
  cases cs with
  | nil => exact absurd rfl h
  | cons c cs' => rfl

theorem parseTreeEntries_serialize (entries : List TreeEntry)
    (hwf : ∀ e ∈ entries, e.wf) :
    ∀ fuel, entries.length ≤ fuel →
      parseTreeEntries fuel ((entries.map TreeEntry.serialize).flatten)
        = some entries := by
  induction entries with
  | nil =>
    intro fuel _
    cases fuel <;> rfl
  | cons e es ih =>
    intro fuel hfuel
    match fuel with
    | 0 => simp at hfuel
    | f + 1 =>
      have hinput : (((e :: es).map TreeEntry.serialize).flatten)
          = e.serialize ++ ((es.map TreeEntry.serialize).flatten) := by simp
      have hne : e.serialize ++ ((es.map TreeEntry.serialize).flatten) ≠ [] := by
        simp [TreeEntry.serialize]
      rw [hinput, parseTreeEntries_cons_eq f _ hne,
        parseTreeEntry_serialize e _ (hwf e (List.mem_cons_self _ _))]
      dsimp only
      rw [ih (fun x hx => hwf x (List.mem_cons_of_mem _ hx)) f (by simp at hfuel; omega)]
      rfl

theorem tree_deserialize_serialize (t : Tree) (hwf : ∀ e ∈ t.entries, e.wf) :
    Tree.deserialize t.serializeBody = some t := by
  rw [Tree.deserialize, Tree.serializeBody,
    parseTreeEntries_serialize t.entries hwf _ (length_le_serialize_flatten _)]
  rfl

/-! ### Person record round trip (for C4) -/

theorem readInt_cons_space (s : Str) : readInt (' ' :: s) = readInt s := by
  simp only [readInt, List.dropWhile_cons]
  norm_num [isSpaceCh]

theorem digit_ne_nl {c : Char} (h : isDigitCh c = true) : c ≠ '\n' := by
  rintro rfl
  exact absurd h (by decide)

theorem intToStr_ne_nl (i : Int) : ∀ c ∈ intToStr i, c ≠ '\n' := by
  intro c hc
  unfold intToStr at hc
  split at hc
  · rcases List.mem_cons.1 hc with rfl | hc'
    · decide
    · exact digit_ne_nl (natToStr_all_digits _ c hc')
  · exact digit_ne_nl (natToStr_all_digits _ c hc)

theorem person_parse_format (p : PersonTimestamp) (hwf : p.wf) :
    PersonTimestamp.parse_from_line_content p.format_for_commit = some p := by
  obtain ⟨hn1, hn2, hn3, hn4, he1, he2, ht1, ht2⟩ := hwf
  have hltA : ∀ c ∈ p.name ++ [' '], (fun c => decide (c ≠ '<')) c = true := by
    intro c hc
    rcases List.mem_append.1 hc with hc' | hc'
    · simp only [decide_eq_true_eq]
      rintro rfl
      exact hn2 hc'
    · simp at hc'
      simp [hc']
  have hgtE : ∀ c ∈ p.email, (fun c => decide (c ≠ '>')) c = true := by
    intro c hc
    simp only [decide_eq_true_eq]
    rintro rfl
    exact he1 hc
  have hshape : p.format_for_commit
      = (p.name ++ [' ']) ++ '<' :: (p.email ++ '>' ::
        (' ' :: (intToStr p.timestamp ++ ' ' :: p.timezone_offset))) := by
    simp [PersonTimestamp.format_for_commit]
  have hdropA : p.format_for_commit.dropWhile (fun c => decide (c ≠ '<'))
      = '<' :: (p.email ++ '>' ::
        (' ' :: (intToStr p.timestamp ++ ' ' :: p.timezone_offset))) := by
    rw [hshape, dropWhile_all_append hltA, List.dropWhile_cons]
    simp
  have htakeA : p.format_for_commit.takeWhile (fun c => decide (c ≠ '<'))
      = p.name ++ [' '] := by
    rw [hshape, takeWhile_all_append hltA, List.takeWhile_cons]
    simp
  have hdropB : (p.email ++ '>' ::
      (' ' :: (intToStr p.timestamp ++ ' ' :: p.timezone_offset))).dropWhile
        (fun c => decide (c ≠ '>'))
      = '>' :: (' ' :: (intToStr p.timestamp ++ ' ' :: p.timezone_offset)) := by
    rw [dropWhile_all_append hgtE, List.dropWhile_cons]
    simp
  have htakeB : (p.email ++ '>' ::
      (' ' :: (intToStr p.timestamp ++ ' ' :: p.timezone_offset))).takeWhile
        (fun c => decide (c ≠ '>')) = p.email := by
    rw [takeWhile_all_append hgtE, List.takeWhile_cons]
    simp
  have hread : readInt (' ' :: (intToStr p.timestamp ++ ' ' :: p.timezone_offset))
      = some (p.timestamp, ' ' :: p.timezone_offset) := by
    rw [readInt_cons_space]
    refine readInt_intToStr _ _ ?_
    intro c hc
    simp only [List.head?_cons, Option.some.injEq] at hc
    rw [← hc]
    decide
  have htok : readToken (' ' :: p.timezone_offset)
      = some (p.timezone_offset, []) := by
    have hdropS : (' ' :: p.timezone_offset).dropWhile isSpaceCh
        = p.timezone_offset := by
      rw [List.dropWhile_cons, if_pos (by decide)]
      refine dropWhile_head_neg ?_
      intro c hc
      cases htz : p.timezone_offset with
      | nil => rw [htz] at hc; cases hc
      | cons a as =>
        rw [htz] at hc
        simp only [List.head?_cons, Option.some.injEq] at hc
        rw [← hc]
        exact ht2 a (htz ▸ List.mem_cons_self _ _)
    have htakeS : p.timezone_offset.takeWhile (fun c => !isSpaceCh c)
        = p.timezone_offset :=
      List.takeWhile_eq_self_iff.2 (by
        intro c hc
        simp [ht2 c hc])
    have hdropS2 : p.timezone_offset.dropWhile (fun c => !isSpaceCh c) = [] := by
      rw [List.dropWhile_eq_nil_iff]
      intro c hc
      simp [ht2 c hc]
    rw [readToken]
    simp only [hdropS, htakeS, hdropS2]
    rw [if_neg ht1]
  have hlast : (p.name ++ [' ']).getLast? = some ' ' := by
    simp
  rw [PersonTimestamp.parse_from_line_content]
  simp only [hdropA, htakeA, hdropB, htakeB, hread, htok]
  rw [if_neg (by
    intro hmem
    rcases List.mem_append.1 hmem with h' | h'
    · exact hn3 h'
    · simp at h')]
  rw [hlast, if_pos rfl]
  simp only [List.dropLast_concat]
  rw [if_neg hn1]

/-! ### Commit round trip (for C4) -/

theorem getlines_line (l rest : Str) (hl : ∀ c ∈ l, c ≠ '\n') :
    getlines (l ++ '\n' :: rest) = l :: getlines rest := by
  induction l with
  | nil => simp [getlines]
  | cons c cs ih =>
    have hc : c ≠ '\n' := hl c (List.mem_cons_self _ _)
    rw [List.cons_append, getlines, if_neg hc,
      ih (fun d hd => hl d (List.mem_cons_of_mem _ hd))]

theorem getlines_joinMap (ls : List Str) (tail : Str)
    (h : ∀ l ∈ ls, ∀ c ∈ l, c ≠ '\n') :
    getlines ((ls.map (· ++ ['\n'])).flatten ++ tail) = ls ++ getlines tail := by
  induction ls with
  | nil => simp
  | cons l ls ih =>
    have hshape : ((l :: ls).map (· ++ ['\n'])).flatten ++ tail
        = l ++ '\n' :: ((ls.map (· ++ ['\n'])).flatten ++ tail) := by
      simp
    rw [hshape, getlines_line l _ (h l (List.mem_cons_self _ _)),
      ih (fun x hx => h x (List.mem_cons_of_mem _ hx))]
    rfl

theorem getlines_eq_nil_iff (cs : Str) : getlines cs = [] ↔ cs = [] := by
  constructor
  · intro h
    cases cs with
    | nil => rfl
    | cons c cs' =>
      rw [getlines] at h
      split at h
      · cases h
      · split at h <;> cases h
  · rintro rfl; rfl

theorem joinLines_getlines {msg : Str} (h : msg.getLast? ≠ some '\n') :
    joinLines (getlines msg) = msg := by
  induction msg with
  | nil => rfl
  | cons c cs ih =>
    by_cases hcs : cs = []
    · subst hcs
      have hc : c ≠ '\n' := by
        intro hc
        exact h (by rw [hc]; rfl)
      rw [getlines, if_neg hc]
      rfl
    · have hlast : cs.getLast? ≠ some '\n' := by
        cases cs with
        | nil => exact absurd rfl hcs
        | cons b bs => rw [List.getLast?_cons_cons] at h; exact h
      have hG : getlines cs ≠ [] := fun hn => hcs ((getlines_eq_nil_iff cs).1 hn)
      obtain ⟨l, ls, hls⟩ : ∃ l ls, getlines cs = l :: ls := by
        cases hg : getlines cs with
        | nil => exact absurd hg hG
        | cons l ls => exact ⟨l, ls, rfl⟩
      by_cases hc : c = '\n'
      · subst hc
        rw [getlines, if_pos rfl, hls]
        have : joinLines ([] :: l :: ls) = '\n' :: joinLines (l :: ls) := by
          simp [joinLines]
        rw [this, ← hls, ih hlast]
      · rw [getlines, if_neg hc, hls]
        have : joinLines ((c :: l) :: ls) = c :: joinLines (l :: ls) := by
          simp [joinLines]
        rw [this, ← hls, ih hlast]

theorem runLines_msgSection (ls : List Str) :
    ∀ st : CommitParseState, st.inMeta = false →
      runLines st ls = some { st with msgLines := st.msgLines ++ ls } := by
  induction ls with
  | nil => intro st _; simp [runLines]
  | cons l ls ih =>
    intro st hmeta
    have hp : processLine st l = some { st with msgLines := st.msgLines ++ [l] } := by
      simp [processLine, hmeta]
    rw [runLines, hp]
    dsimp only
    have hstep := ih { st with msgLines := st.msgLines ++ [l] } (by simp [hmeta])
    rw [hstep]
    simp

theorem processLine_keyword (st : CommitParseState) (kw value : Str)
    (hmeta : st.inMeta = true) (hkw : ∀ c ∈ kw, notSpaceCh c = true) :
    processLine st (kw ++ ' ' :: value) =
      (if kw = str "tree" then
        if st.tree ≠ [] then none
        else if value.length ≠ 40 then none
        else some { st with tree := value }
      else if kw = str "parent" then
        if value.length ≠ 40 then none
        else some { st with parents := st.parents ++ [value] }
      else if kw = str "author" then
        match PersonTimestamp.parse_from_line_content value with
        | none => none
        | some p => some { st with author := some p }
      else if kw = str "committer" then
        match PersonTimestamp.parse_from_line_content value with
        | none => none
        | some p => some { st with committer := some p }
      else some st) := by
  have hne : kw ++ ' ' :: value ≠ [] := by simp
  have hdrop : (kw ++ ' ' :: value).dropWhile notSpaceCh = ' ' :: value := by
    rw [dropWhile_all_append hkw, List.dropWhile_cons]
    simp [notSpaceCh]
  have htake : (kw ++ ' ' :: value).takeWhile notSpaceCh = kw := by
    rw [takeWhile_all_append hkw, List.takeWhile_cons]
    simp [notSpaceCh]
  rw [processLine, if_pos hmeta, if_neg hne]
  simp only [hdrop, htake]

theorem processLine_tree_line (st : CommitParseState) (hex : Str)
    (hmeta : st.inMeta = true) (htr : st.tree = []) (hlen : hex.length = 40) :
    processLine st (str "tree" ++ ' ' :: hex) = some { st with tree := hex } := by
  rw [processLine_keyword _ _ _ hmeta (by decide), if_pos rfl,
    if_neg (by simp [htr]), if_neg (by simp [hlen])]

theorem processLine_parent_line (st : CommitParseState) (p : Str)
    (hmeta : st.inMeta = true) (hlen : p.length = 40) :
    processLine st (str "parent" ++ ' ' :: p)
      = some { st with parents := st.parents ++ [p] } := by
  rw [processLine_keyword _ _ _ hmeta (by decide), if_neg (by decide),
    if_pos rfl, if_neg (by simp [hlen])]

theorem processLine_author_line (st : CommitParseState) (p : PersonTimestamp)
    (hmeta : st.inMeta = true) (hwf : p.wf) :
    processLine st (str "author" ++ ' ' :: p.format_for_commit)
      = some { st with author := some p } := by
  rw [processLine_keyword _ _ _ hmeta (by decide), if_neg (by decide),
    if_neg (by decide), if_pos rfl, person_parse_format p hwf]

theorem processLine_committer_line (st : CommitParseState) (p : PersonTimestamp)
    (hmeta : st.inMeta = true) (hwf : p.wf) :
    processLine st (str "committer" ++ ' ' :: p.format_for_commit)
      = some { st with committer := some p } := by
  rw [processLine_keyword _ _ _ hmeta (by decide), if_neg (by decide),
    if_neg (by decide), if_neg (by decide), if_pos rfl,
    person_parse_format p hwf]

theorem processLine_blank_line (st : CommitParseState) (hmeta : st.inMeta = true) :
    processLine st [] = some { st with inMeta := false } := by
  rw [processLine, if_pos hmeta, if_pos rfl]

theorem runLines_parent_lines (parents : List Str)
    (hp : ∀ p ∈ parents, p.length = 40) :
    ∀ (st : CommitParseState) (ls : List Str), st.inMeta = true →
      runLines st ((parents.map (fun p => str "parent" ++ ' ' :: p)) ++ ls)
        = runLines { st with parents := st.parents ++ parents } ls := by
  induction parents with
  | nil => intro st ls _; simp
  | cons p ps ih =>
    intro st ls hmeta
    have hstep := processLine_parent_line st p hmeta (hp p (List.mem_cons_self _ _))
    rw [List.map_cons, List.cons_append, runLines, hstep]
    dsimp only
    rw [ih (fun x hx => hp x (List.mem_cons_of_mem _ hx))
      { st with parents := st.parents ++ [p] } ls (by simp [hmeta])]
    simp

theorem format_ne_nl (p : PersonTimestamp) (hwf : p.wf) :
    ∀ ch ∈ p.format_for_commit, ch ≠ '\n' := by
  obtain ⟨hn1, hn2, hn3, hn4, he1, he2, ht1, ht2⟩ := hwf
  intro ch hch
  rw [PersonTimestamp.format_for_commit] at hch
  rcases List.mem_append.1 hch with h | h
  · rcases List.mem_append.1 h with h | h
    · rcases List.mem_append.1 h with h | h
      · exact fun hEq => hn4 (hEq ▸ h)
      · rcases List.mem_cons.1 h with rfl | h
        · decide
        · rcases List.mem_cons.1 h with rfl | h
          · decide
          · exact fun hEq => he2 (hEq ▸ h)
    · rcases List.mem_cons.1 h with rfl | h
      · decide
      · rcases List.mem_cons.1 h with rfl | h
        · decide
        · exact intToStr_ne_nl _ ch h
  · rcases List.mem_cons.1 h with rfl | h
    · decide
    · intro hEq
      have hsp := ht2 ch h
      rw [hEq] at hsp
      exact absurd hsp (by decide)

theorem commit_deserialize_serialize (c : Commit) (hwf : c.wf)
    (hmsg : c.message.getLast? ≠ some '\n') :
    Commit.deserialize c.serializeBody = some c := by
  obtain ⟨hlen, hnl, hpar, hwa, hwc⟩ := hwf
  have hlineA : ∀ ch ∈ str "tree" ++ ' ' :: c.tree_hash_hex, ch ≠ '\n' := by
    have t1 : ∀ ch ∈ str "tree", ch ≠ '\n' := by decide
    intro ch hch
    rcases List.mem_append.1 hch with h' | h'
    · exact t1 ch h'
    · rcases List.mem_cons.1 h' with rfl | h''
      · decide
      · exact fun hEq => hnl (hEq ▸ h'')
  have hlineP : ∀ l ∈ c.parent_hashes_hex.map (fun p => str "parent" ++ ' ' :: p),
      ∀ ch ∈ l, ch ≠ '\n' := by
    have t1 : ∀ ch ∈ str "parent", ch ≠ '\n' := by decide
    intro l hl ch hch
    obtain ⟨p, hpmem, rfl⟩ := List.mem_map.1 hl
    rcases List.mem_append.1 hch with h' | h'
    · exact t1 ch h'
    · rcases List.mem_cons.1 h' with rfl | h''
      · decide
      · exact fun hEq => (hpar p hpmem).2 (hEq ▸ h'')
  have hlineAu : ∀ ch ∈ str "author" ++ ' ' :: c.author.format_for_commit,
      ch ≠ '\n' := by
    have t1 : ∀ ch ∈ str "author", ch ≠ '\n' := by decide
    intro ch hch
    rcases List.mem_append.1 hch with h' | h'
    · exact t1 ch h'
    · rcases List.mem_cons.1 h' with rfl | h''
      · decide
      · exact format_ne_nl c.author hwa ch h''
  have hlineCo : ∀ ch ∈ str "committer" ++ ' ' :: c.committer.format_for_commit,
      ch ≠ '\n' := by
    have t1 : ∀ ch ∈ str "committer", ch ≠ '\n' := by decide
    intro ch hch
    rcases List.mem_append.1 hch with h' | h'
    · exact t1 ch h'
    · rcases List.mem_cons.1 h' with rfl | h''
      · decide
      · exact format_ne_nl c.committer hwc ch h''
  have hshape : c.serializeBody
      = (str "tree" ++ ' ' :: c.tree_hash_hex) ++ '\n' ::
        (((c.parent_hashes_hex.map (fun p => str "parent" ++ ' ' :: p)).map
            (· ++ ['\n'])).flatten ++
          ((str "author" ++ ' ' :: c.author.format_for_commit) ++ '\n' ::
            ((str "committer" ++ ' ' :: c.committer.format_for_commit) ++ '\n' ::
              ('\n' :: c.message)))) := by
    simp [Commit.serializeBody, List.map_map, Function.comp_def]
  have hlines : getlines c.serializeBody
      = (str "tree" ++ ' ' :: c.tree_hash_hex)
        :: ((c.parent_hashes_hex.map (fun p => str "parent" ++ ' ' :: p))
        ++ (str "author" ++ ' ' :: c.author.format_for_commit)
        :: (str "committer" ++ ' ' :: c.committer.format_for_commit)
        :: [] :: getlines c.message) := by
    rw [hshape, getlines_line _ _ hlineA, getlines_joinMap _ _ hlineP,
      getlines_line _ _ hlineAu, getlines_line _ _ hlineCo]
    have : getlines ('\n' :: c.message) = [] :: getlines c.message := by
      rw [getlines, if_pos rfl]
    rw [this]
  have htrne : c.tree_hash_hex ≠ [] := by
    intro h
    rw [h] at hlen
    simp at hlen
  have hrun : runLines ⟨[], [], none, none, true, []⟩ (getlines c.serializeBody)
      = some ⟨c.tree_hash_hex, c.parent_hashes_hex, some c.author,
          some c.committer, false, getlines c.message⟩ := by
    rw [hlines, runLines, processLine_tree_line _ _ rfl rfl hlen]
    dsimp only
    rw [runLines_parent_lines c.parent_hashes_hex (fun p hp => (hpar p hp).1)
      _ _ rfl]
    rw [runLines, processLine_author_line _ _ rfl hwa]
    dsimp only
    rw [runLines, processLine_committer_line _ _ rfl hwc]
    dsimp only
    rw [runLines, processLine_blank_line _ rfl]
    dsimp only
    rw [runLines_msgSection _ _ rfl]
    simp
  rw [Commit.deserialize, hrun]
  dsimp only
  rw [if_neg htrne, joinLines_getlines hmsg]

def personC4 : PersonTimestamp := ⟨str "Alice", str "a@b.c", 42, str "+0000"⟩

/-- A commit whose message ends in a newline. -/
def commitC4 : Commit :=
  ⟨List.replicate 40 'a', [], personC4, personC4, str "hi\n"⟩

/-- The same commit with the trailing newline stripped. -/
def commitC4b : Commit := ⟨List.replicate 40 'a', [], personC4, personC4, str "hi"⟩

def treeC4 : Tree := ⟨[entryC8a, entryC8b]⟩

/-- C4: the claim "the message byte-for-byte (including any trailing
newline) survives the round trip" is refuted: `Commit::deserialize`
rebuilds the message from `std::getline` lines, so the commit whose
message is `"hi\n"` comes back with message `"hi"`. -/
theorem C4_serialize_roundtrip_cex :
    Commit.deserialize commitC4.serializeBody ≠ some commitC4 ∧
    Commit.deserialize commitC4.serializeBody = some commitC4b := by
  constructor <;> decide

/-- C4 (amended): `deserialize (serialize X)` (header removed) returns `X`
for every blob; for every tree whose entries are well formed (no space in
a mode, no NUL in a name, 40-character hashes); and for every well-formed
commit whose message does not end in `'\n'` — a terminal newline of the
message is dropped by deserialization, as the counterexample shows. -/
theorem C4_serialize_roundtrip :
    (∀ b : Blob, Blob.deserialize b.serializeBody = some b) ∧
    (∀ t : Tree, (∀ e ∈ t.entries, e.wf) →
      Tree.deserialize t.serializeBody = some t) ∧
    (∀ c : Commit, c.wf → c.message.getLast? ≠ some '\n' →
      Commit.deserialize c.serializeBody = some c) :=
  ⟨fun _ => rfl, tree_deserialize_serialize, commit_deserialize_serialize⟩

theorem C4_serialize_roundtrip_witness :
    (∀ e ∈ treeC4.entries, e.wf) ∧ commitC4b.wf ∧
    commitC4b.message.getLast? ≠ some '\n' ∧
    Tree.deserialize treeC4.serializeBody = some treeC4 ∧
    Commit.deserialize commitC4b.serializeBody = some commitC4b :=
  ⟨by decide, by decide, by decide,
   C4_serialize_roundtrip.2.1 treeC4 (by decide),
   C4_serialize_roundtrip.2.2 commitC4b (by decide) (by decide)⟩

/-! ## C10 — `Repository::rm` (Repository.cpp:465)

The path has already been resolved to the normalized worktree-relative
form (steps A of `rm` / `rm_cached`; path arithmetic is an out-of-scope
filesystem utility per spec §1).  The SHA-1 primitive is a parameter. -/

/-- `Index::get_entry` (Index.cpp:219): `std::lower_bound` on the
path-sorted entry list, then an equality check — on a sorted list this is
the first entry whose path is not below the probe. -/
def get_entry (entries : List IndexEntry) (path : Str) : Option IndexEntry :=
  match entries.find? (fun e => !decide (e.file_path < path)) with
  | some e => if e.file_path = path then some e else none
  | none => none

/-- `Index::remove_entry` (Index.cpp:200): erase every entry of that path. -/
def remove_entry (entries : List IndexEntry) (path : Str) : List IndexEntry :=
  entries.filter (fun e => !decide (e.file_path = path))

/-- Index plus working tree (path → file bytes). -/
structure WorkState where
  indexEntries : List IndexEntry
  workdir : List (Str × Str)
deriving DecidableEq, Repr

/-- `Repository::rm` (Repository.cpp:465): fail when the path is not
indexed; when the working-tree file exists, refuse unless its bytes still
hash to the indexed blob; remove from the index (`rm_cached`, which also
rewrites the index file) and then delete the working-tree file if it
existed. -/
def rm (sha1 : Str → Str) (st : WorkState) (path : Str) : Bool × WorkState :=
  match get_entry st.indexEntries path with
  | none => (false, st)
  | some entry =>
    match lookupAssoc st.workdir path with
    | some content =>
      if sha1 (Blob.serialize ⟨content⟩) ≠ entry.blob_hash_hex then (false, st)
      else
        (true, ⟨remove_entry st.indexEntries path,
          st.workdir.filter (fun kv => !decide (kv.1 = path))⟩)
    | none =>
      (true, { st with indexEntries := remove_entry st.indexEntries path })

/-- C10: when the path is indexed but absent from the working tree, `rm`
succeeds, removes the index entry, and leaves the working tree untouched;
the content safety check never runs (the result holds for every hash
function). -/
theorem C10_rm_missing_file (sha1 : Str → Str) (st : WorkState) (path : Str)
    (e : IndexEntry) (hidx : get_entry st.indexEntries path = some e)
    (hwd : lookupAssoc st.workdir path = none) :
    rm sha1 st path =
      (true, ⟨remove_entry st.indexEntries path, st.workdir⟩) := by
  rw [rm, hidx]
  dsimp only
  rw [hwd]

def entryC10 : IndexEntry :=
  ⟨str "100644", List.replicate 40 'c', 7, 8, 9, str "a.txt"⟩

theorem C10_rm_missing_file_witness :
    get_entry [entryC10] (str "a.txt") = some entryC10 ∧
    lookupAssoc [] (str "a.txt") = none ∧
    rm sha1Dummy ⟨[entryC10], []⟩ (str "a.txt") =
      (true, ⟨remove_entry [entryC10] (str "a.txt"), []⟩) :=
  ⟨by decide, by decide,
   C10_rm_missing_file sha1Dummy ⟨[entryC10], []⟩ (str "a.txt") entryC10
     (by decide) (by decide)⟩

/-! ## C6 — `Repository::commit` (Repository.cpp:546)

Three I/O-heavy subroutines are parameters of the model: `buildRoot`
(`_build_trees_and_get_root_hash`, whose output the rejection check
compares with the `HEAD` tree), `sha1` (the object hash), and `repopulate`
(`_populate_index_from_tree_recursive`, which refills the index from the
new root tree).  The claim quantifies over their outputs, not their
internals. -/

/-- The repository state `commit` touches. -/
structure CommitRepoState where
  indexEntries : List IndexEntry
  store : ObjectStore
  head : Option Str
  headBranch : Option Str
  branchTips : List (Str × Str)
  mergeHead : Option Str

/-- `Repository::commit` (Repository.cpp:546): the staged-tree gate and
its surroundings.  Returns the new commit hash (or `none` on rejection)
and the state after the call. -/
def commitOp (buildRoot : List IndexEntry → Str) (sha1 : Str → Str)
    (repopulate : Str → List IndexEntry) (who : PersonTimestamp)
    (st : CommitRepoState) (message : Str) : Option Str × CommitRepoState :=
  let index_entries := sortEntries st.indexEntries
  let is_completing_merge := st.mergeHead.isSome
  let head_tree : Str :=
    match st.head with
    | some h =>
      match load_by_hash st.store h with
      | some hc => hc.tree_hash_hex
      | none => []
    | none => []
  if ¬is_completing_merge ∧ index_entries = [] ∧ st.head = none then (none, st)
  else
    let root_tree_hash := buildRoot index_entries
    if ¬is_completing_merge ∧ st.head.isSome ∧ root_tree_hash = head_tree then
      (none, st)
    else
      let parents0 : List Str :=
        match st.head with
        | some h => [h]
        | none => []
      let parentsRes : Option (List Str) :=
        if is_completing_merge then
          if parents0 = [] then none
          else
            match st.mergeHead with
            | some m => if m.length = 40 then some (parents0 ++ [m]) else none
            | none => none
        else some parents0
      match parentsRes with
      | none => (none, st)
      | some parents =>
        let cobj : Commit := ⟨root_tree_hash, parents, who, who, message⟩
        let chash := sha1 cobj.serialize
        (some chash,
          { st with
              store :=
                if (load_by_hash st.store chash).isSome then st.store
                else st.store ++ [(chash, cobj)],
              head := some chash,
              branchTips :=
                match st.headBranch with
                | some b => setRef st.branchTips b chash
                | none => st.branchTips,
              mergeHead := none,
              indexEntries := repopulate root_tree_hash })

/-- C6: when `HEAD` resolves to a loadable commit (and `MERGE_HEAD`, if
present, holds a 40-character hash), `commit` is rejected — returning no
hash and leaving the state untouched — exactly when the root tree built
from the index equals the `HEAD` commit's tree and no merge is in
progress. -/
theorem C6_commit_reject_iff
    (buildRoot : List IndexEntry → Str) (sha1 : Str → Str)
    (repopulate : Str → List IndexEntry) (who : PersonTimestamp)
    (st : CommitRepoState) (message : Str) (h : Str) (hc : Commit)
    (hhead : st.head = some h) (hload : load_by_hash st.store h = some hc)
    (hmh : ∀ m, st.mergeHead = some m → m.length = 40) :
    ((commitOp buildRoot sha1 repopulate who st message).1 = none ↔
      buildRoot (sortEntries st.indexEntries) = hc.tree_hash_hex ∧
        st.mergeHead = none) ∧
    ((commitOp buildRoot sha1 repopulate who st message).1 = none →
      (commitOp buildRoot sha1 repopulate who st message).2 = st) := by
  cases hmrg : st.mergeHead with
  | none =>
    by_cases hroot : buildRoot (sortEntries st.indexEntries) = hc.tree_hash_hex
    · have hrej : commitOp buildRoot sha1 repopulate who st message = (none, st) := by
        rw [commitOp]
        rw [if_neg (by simp [hmrg, hhead])]
        rw [if_pos (by simp [hmrg, hhead, hload, hroot])]
      rw [hrej]
      simp [hroot, hmrg]
    · have hacc : (commitOp buildRoot sha1 repopulate who st message).1.isSome := by
        rw [commitOp]
        rw [if_neg (by simp [hmrg, hhead])]
        rw [if_neg (by simp [hmrg, hhead, hload, hroot])]
        simp [hmrg, hhead]
      constructor
      · constructor
        · intro hnone
          rw [hnone] at hacc
          cases hacc
        · intro hand
          exact absurd hand.1 hroot
      · intro hnone
        rw [hnone] at hacc
        cases hacc
  | some m =>
    have hacc : (commitOp buildRoot sha1 repopulate who st message).1.isSome := by
      rw [commitOp]
      rw [if_neg (by simp [hmrg])]
      rw [if_neg (by simp [hmrg])]
      simp [hmrg, hhead, hmh m hmrg]
    constructor
    · constructor
      · intro hnone
        rw [hnone] at hacc
        cases hacc
      · intro hand
        cases hand.2
    · intro hnone
      rw [hnone] at hacc
      cases hacc

def headCommitC6 : Commit := mkCommit []

def hashC6 : Str := List.replicate 40 'd'

def stC6 : CommitRepoState :=
  ⟨[entryC10], [(hashC6, headCommitC6)], some hashC6, none, [], none⟩

theorem C6_commit_reject_iff_witness :
    stC6.head = some hashC6 ∧
    load_by_hash stC6.store hashC6 = some headCommitC6 ∧
    ((commitOp (fun _ => []) sha1Dummy (fun _ => []) personC4 stC6 (str "m")).1
        = none ↔
      (fun _ : List IndexEntry => ([] : Str)) (sortEntries stC6.indexEntries)
          = headCommitC6.tree_hash_hex ∧
        stC6.mergeHead = none) :=
  ⟨by decide, by decide,
   (C6_commit_reject_iff (fun _ => []) sha1Dummy (fun _ => []) personC4 stC6
     (str "m") hashC6 headCommitC6 (by decide) (by decide)
     (by intro m hm; cases hm)).1⟩

/-! ## C3 — the three-way section of `Repository::merge` (Repository.cpp:2137)

Entered once the merge preconditions hold and BASE, OURS, THEIRS are three
distinct loadable commits.  The flat tree maps produced by
`_load_tree_contents_recursive` are the inputs (`path → (blob-hash, mode)`);
`std::map` / `std::set` iteration is path-sorted.  Conflict markers are
written only to the working tree, which this state does not constrain.
Tree building, hashing and the author record are parameters as in `commitOp`. -/

/-- A flat tree map `path → (blob-hash, mode)`. -/
abbrev FileMap := List (Str × (Str × Str))

def lookupFile : FileMap → Str → Option (Str × Str)
  | [], _ => none
  | (k, v) :: rest, p => if k = p then some v else lookupFile rest p

/-- `all_involved_paths`: a `std::set` over the keys of the three maps —
sorted, duplicate-free. -/
def allPaths (base ours theirs : FileMap) : List Str :=
  ((base.map (·.1) ++ ours.map (·.1) ++ theirs.map (·.1)).insertionSort
    (fun a b => a ≤ b)).dedup

/-- Accumulator of the per-path loop (`merged_entries_accumulator`,
`conflict_paths_list`, `conflicts_occurred`). -/
structure MergeScanResult where
  mergedEntries : List IndexEntry
  conflictPaths : List Str
  conflictsOccurred : Bool
deriving DecidableEq, Repr

/-- One iteration of the per-path loop (Repository.cpp:2154): equal sides
win, a side equal to BASE yields the other side, anything else is a
conflict; a non-conflicting non-empty result is appended to the merged
entries unless its blob fails to load, which is also recorded as a
conflict. -/
def mergeStep (blobStore : List (Str × Str)) (now : Int)
    (base ours theirs : FileMap) (acc : MergeScanResult) (path : Str) :
    MergeScanResult :=
  let base_h := match lookupFile base path with | some v => v.1 | none => []
  let ours_h := match lookupFile ours path with | some v => v.1 | none => []
  let theirs_h := match lookupFile theirs path with | some v => v.1 | none => []
  let result_mode :=
    match lookupFile ours path with
    | some v => v.2
    | none =>
      match lookupFile theirs path with
      | some v => v.2
      | none =>
        match lookupFile base path with
        | some v => v.2
        | none => str "100644"
  let pick : Option Str :=
    if ours_h = theirs_h then some ours_h
    else if base_h = ours_h ∧ base_h ≠ theirs_h then some theirs_h
    else if base_h = theirs_h ∧ base_h ≠ ours_h then some ours_h
    else none
  match pick with
  | none =>
    { acc with conflictsOccurred := true,
               conflictPaths := acc.conflictPaths ++ [path] }
  | some merged =>
    if merged = [] then acc
    else
      match lookupAssoc blobStore merged with
      | some content =>
        { acc with mergedEntries := acc.mergedEntries ++
            [⟨result_mode, merged, now, 0, content.length, path⟩] }
      | none =>
        { acc with conflictsOccurred := true,
                   conflictPaths := acc.conflictPaths ++ [path] }

/-- The whole per-path loop. -/
def mergeScan (blobStore : List (Str × Str)) (now : Int)
    (base ours theirs : FileMap) : MergeScanResult :=
  (allPaths base ours theirs).foldl (mergeStep blobStore now base ours theirs)
    ⟨[], [], false⟩

/-- The repository state the three-way section can touch. -/
structure MergeState where
  indexEntries : List IndexEntry
  head : Option Str
  branchTips : List (Str × Str)
  mergeHead : Option Str
  fileConflicts : Option (List Str)
deriving Repr

/-- The three-way section of `Repository::merge` (Repository.cpp:2137):
scan all paths; on any conflict persist `FILE_CONFLICTS` and `MERGE_HEAD`
(THEIRS) and fail without touching index, `HEAD` or branch refs; otherwise
rebuild the index from the merged entries, build its root tree, create the
two-parent merge commit and advance the current branch (or detached
`HEAD`). -/
def merge_three_way (blobStore : List (Str × Str)) (now : Int)
    (buildRoot : List IndexEntry → Str) (sha1 : Str → Str)
    (who : PersonTimestamp) (ours_hash theirs_hash : Str)
    (branch_name cur_label : Str) (is_on_branch : Bool) (cur_ref : Str)
    (base ours theirs : FileMap) (st : MergeState) : Bool × MergeState :=
  let scan := mergeScan blobStore now base ours theirs
  if scan.conflictsOccurred then
    (false, { st with fileConflicts := some scan.conflictPaths,
                      mergeHead := some theirs_hash })
  else
    let newIndex := sortEntries scan.mergedEntries
    let tree := buildRoot newIndex
    let msg := str "Merge branch '" ++ branch_name ++ ['\x27'] ++
      (if is_on_branch then str " into " ++ cur_label else [])
    let cobj : Commit := ⟨tree, [ours_hash, theirs_hash], who, who, msg⟩
    let chash := sha1 cobj.serialize
    (true, { st with
        indexEntries := newIndex,
        head := if is_on_branch then st.head else some chash,
        branchTips :=
          if is_on_branch then setRef st.branchTips cur_ref chash
          else st.branchTips })

/-- C3: whenever the per-path loop records at least one conflict, the merge
fails, `MERGE_HEAD` holds the THEIRS hash, `FILE_CONFLICTS` holds exactly
the conflicted path list, and the index, `HEAD` and all branch refs are
unchanged. -/
theorem C3_merge_conflict_effects (blobStore : List (Str × Str)) (now : Int)
    (buildRoot : List IndexEntry → Str) (sha1 : Str → Str)
    (who : PersonTimestamp) (ours_hash theirs_hash : Str)
    (branch_name cur_label : Str) (is_on_branch : Bool) (cur_ref : Str)
    (base ours theirs : FileMap) (st : MergeState)
    (hconf : (mergeScan blobStore now base ours theirs).conflictsOccurred
      = true) :
    merge_three_way blobStore now buildRoot sha1 who ours_hash theirs_hash
        branch_name cur_label is_on_branch cur_ref base ours theirs st =
      (false, { st with
        fileConflicts :=
          some (mergeScan blobStore now base ours theirs).conflictPaths,
        mergeHead := some theirs_hash }) := by
  rw [merge_three_way]
  rw [if_pos hconf]

def fmapBase : FileMap := [(str "f", (List.replicate 40 '1', str "100644"))]

def fmapOurs : FileMap := [(str "f", (List.replicate 40 '2', str "100644"))]

def fmapTheirs : FileMap := [(str "f", (List.replicate 40 '3', str "100644"))]

def stC3 : MergeState := ⟨[entryC10], some hashC6, [], none, none⟩

theorem C3_merge_conflict_effects_witness :
    (mergeScan [] 0 fmapBase fmapOurs fmapTheirs).conflictsOccurred = true ∧
    merge_three_way [] 0 (fun _ => []) sha1Dummy personC4 hashC6 hashC1
        (str "dev") (str "main") true (str "refs/heads/main")
        fmapBase fmapOurs fmapTheirs stC3 =
      (false, { stC3 with
        fileConflicts :=
          some (mergeScan [] 0 fmapBase fmapOurs fmapTheirs).conflictPaths,
        mergeHead := some hashC1 }) :=
  ⟨by decide,
   C3_merge_conflict_effects [] 0 (fun _ => []) sha1Dummy personC4 hashC6
     hashC1 (str "dev") (str "main") true (str "refs/heads/main")
     fmapBase fmapOurs fmapTheirs stC3 (by decide)⟩

end Biogit
